import Mathlib

/-!
Shallow embedding of `src/fhirtypes/StructureDefinition.ts` (FHIR R4 StructureDefinition
core: element-tree ordering, FSH path resolution, choice-type slicing, reference-target
matching, JSON import/export) together with the verification of the frozen claims about it.

JavaScript strings are modelled as Lean `String`s; every JS string primitive used by the
source (`startsWith`, `endsWith`, `split`, `slice`, template interpolation, lodash
`capitalize`) is embedded below on the character sequence `String.data`.

`ElementDefinition.ts` is not part of the provided sources; the operations it contributes
(`unfold`, `sliceIt`, `addSlice`, `children`, the element-level JSON codec, `hasDiff`,
`calculateDiff`) are modelled from the specification and are marked
`Modelled from the spec:` in their doc comments.
-/

/-- JS `s.startsWith(p)`: `p` is a prefix of the character sequence of `s`. -/
def jsStartsWith (s p : String) : Bool := decide (p.data <+: s.data)

/-- JS `s.endsWith(p)`: `p` is a suffix of the character sequence of `s`. -/
def jsEndsWith (s p : String) : Bool := decide (p.data <:+ s.data)

/-- JS `s.slice(0, -n)` (for `n ≥ 1`): the string without its last `n` characters. -/
def jsDropRight (s : String) (n : Nat) : String := ⟨s.data.take (s.data.length - n)⟩

/-- Auxiliary worker for `jsSplit`. -/
def jsSplitAux (c : Char) : List Char → List Char → List String
  | [], acc => [⟨acc.reverse⟩]
  | a :: rest, acc =>
    if a == c then ⟨acc.reverse⟩ :: jsSplitAux c rest [] else jsSplitAux c rest (a :: acc)

/-- JS `s.split(c)` for a single-character separator; always returns at least one segment
(`"".split(c)` is `[""]`). -/
def jsSplit (s : String) (c : Char) : List String := jsSplitAux c s.data []

/-- JS `list.join(sep)`. -/
def jsJoin (sep : String) : List String → String
  | [] => ""
  | a :: rest => rest.foldl (fun acc s => acc ++ sep ++ s) a

/-- JS `s.slice(s.lastIndexOf('.') + 1)`: the segment after the last dot (the whole string
when there is no dot). Implemented as the last segment of the dot-split. -/
def afterLastDot (s : String) : String := (jsSplit s '.').getLastD s

/-- lodash `capitalize`: first character upper-cased, all remaining characters lower-cased. -/
def jsCapitalize (s : String) : String :=
  match s.data with
  | [] => ""
  | c :: rest => ⟨c.toUpper :: rest.map Char.toLower⟩

/-- JS template interpolation `${v}` of a possibly-`undefined` value. -/
def jsTemplate (o : Option String) : String := o.getD "undefined"

/-- JS `Array.prototype.splice(i, 0, a)`: insert `a` at index `i` (append when `i` is past
the end, which the insertion scan of `addElement` never produces). -/
def insertAt : Nat → α → List α → List α
  | 0, a, l => a :: l
  | _ + 1, a, [] => [a]
  | n + 1, a, b :: l => b :: insertAt n a l

/-- One allowed type of an element: a type code plus, for reference types, the optional
list of target-profile identifiers (`ElementDefinitionType` in the source). -/
structure ElementDefinitionType where
  code : String
  targetProfile : Option (List String) := none
deriving DecidableEq

/-- The slicing configuration of a sliced element (discriminator kind and path, ordered
flag, and the open/closed rule), per §3 of the specification. -/
structure ElementSlicing where
  discriminatorType : String
  discriminatorPath : String
  ordered : Bool
  rules : String
deriving DecidableEq

/-- One constrainable point of a resource's structure (`ElementDefinition`). The fields are
those the specification's data model (§3) gives to ElementNode; the fixed/pattern value and
the binding are opaque payloads, modelled as strings. The back-reference to the owning
StructureDefinition is not stored: operations that need it receive the owner explicitly. -/
structure ElementDefinition where
  id : String
  path : String
  sliceName : Option String := none
  min : Option Nat := none
  max : Option String := none
  type : List ElementDefinitionType := []
  mustSupport : Option Bool := none
  isModifier : Option Bool := none
  isSummary : Option Bool := none
  fixedValue : Option String := none
  binding : Option String := none
  slicing : Option ElementSlicing := none
deriving DecidableEq

/-- A FHIR R4 StructureDefinition: the fixed passthrough metadata fields (each an opaque
JSON payload, modelled as an optional string; `undefined` is `none`) plus the ordered
element tree. The field list is exactly the `PROPS` list of the source. -/
structure StructureDefinition where
  id : Option String := none
  meta : Option String := none
  implicitRules : Option String := none
  language : Option String := none
  text : Option String := none
  contained : Option String := none
  extension : Option String := none
  modifierExtension : Option String := none
  url : Option String := none
  identifier : Option String := none
  version : Option String := none
  name : Option String := none
  title : Option String := none
  status : Option String := none
  experimental : Option String := none
  date : Option String := none
  publisher : Option String := none
  contact : Option String := none
  description : Option String := none
  useContext : Option String := none
  jurisdiction : Option String := none
  purpose : Option String := none
  copyright : Option String := none
  keyword : Option String := none
  fhirVersion : Option String := none
  mapping : Option String := none
  kind : Option String := none
  abstract : Option String := none
  context : Option String := none
  contextInvariant : Option String := none
  type : Option String := none
  baseDefinition : Option String := none
  derivation : Option String := none
  elements : List ElementDefinition := []
deriving DecidableEq

/-- The synthetic root element created by the constructor: `new ElementDefinition('')` with
cardinality 0..*, the three boolean flags false, and no constraints. -/
def rootElement : ElementDefinition :=
  { id := "", path := "", min := some 0, max := some "*",
    mustSupport := some false, isModifier := some false, isSummary := some false }

/-- `new StructureDefinition()`: every structure definition starts with the synthetic root
element as its only element. -/
def StructureDefinition.new : StructureDefinition := { elements := [rootElement] }

/-- A capability resolving a type name to that type's StructureDefinition (`ResolveFn`). -/
def ResolveFn : Type := String → Option StructureDefinition

/-- The insertion scan of `addElement`: walk the element list tracking `lastMatchId`, the
most recent id that is a prefix of the incoming id; keep scanning past elements that are
prefixes of the incoming id or extensions of `lastMatchId`; stop at the first element that
is neither, returning the insertion index. -/
def addElementIndex (x : String) (lastMatchId : String) : List ElementDefinition → Nat
  | [] => 0
  | e :: rest =>
    if jsStartsWith x e.id then addElementIndex x e.id rest + 1
    else if jsStartsWith e.id lastMatchId then addElementIndex x lastMatchId rest + 1
    else 0

/-- `addElement`: insert an ElementDefinition at the index found by the insertion scan. -/
def StructureDefinition.addElement (sd : StructureDefinition) (element : ElementDefinition) :
    StructureDefinition :=
  { sd with elements := insertAt (addElementIndex element.id "" sd.elements) element sd.elements }

/-- `addElements`: add each element in order. -/
def StructureDefinition.addElements (sd : StructureDefinition)
    (elements : List ElementDefinition) : StructureDefinition :=
  elements.foldl StructureDefinition.addElement sd

/-- `findElement(id)`: exact-id lookup; a falsy (empty) id returns not-found. -/
def StructureDefinition.findElement (sd : StructureDefinition) (id : String) :
    Option ElementDefinition :=
  if id == "" then none else sd.elements.find? (fun e => e.id == id)

/-- Modelled from the spec: `ElementDefinition.children()` (ElementDefinition.ts is not
under `src/`) — the elements of the owning StructureDefinition whose id extends this
element's id by a dotted segment; the owner is passed explicitly in place of the
back-reference. -/
def ElementDefinition.childrenIn (e : ElementDefinition) (sd : StructureDefinition) :
    List ElementDefinition :=
  sd.elements.filter (fun c => jsStartsWith c.id (e.id ++ "."))

/-- Modelled from the spec: `ElementDefinition.unfold(resolve)` (§4.4; ElementDefinition.ts
is not under `src/`). When the element's children are not yet present and it carries a
single complex/backbone type, resolve that type's StructureDefinition, copy its element
subtree (excluding its root), rewrite each copy's id and path to be rooted under this
element, insert the copies via `addElements`, and return them; an unresolvable type yields
no new elements. -/
def ElementDefinition.unfold (e : ElementDefinition) (resolve : ResolveFn)
    (sd : StructureDefinition) : List ElementDefinition × StructureDefinition :=
  if (e.childrenIn sd).isEmpty then
    match e.type with
    | [t] =>
      match resolve t.code with
      | some typeSd =>
        let rootLen := (jsTemplate typeSd.type).data.length
        let news := (typeSd.elements.drop 1).map (fun c =>
          { c with
            id := e.id ++ ⟨c.id.data.drop rootLen⟩,
            path := e.path ++ ⟨c.path.data.drop rootLen⟩ })
        (news, sd.addElements news)
      | none => ([], sd)
    | _ => ([], sd)
  else ([], sd)

/-- Modelled from the spec: `ElementDefinition.sliceIt('type', '$this', false, 'open')`
(§4.3; ElementDefinition.ts is not under `src/`) — mark the element as sliced with the
given discriminator kind and path, ordered flag and rule. -/
def ElementDefinition.sliceIt (e : ElementDefinition) (discType discPath : String)
    (ordered : Bool) (rules : String) : ElementDefinition :=
  { e with slicing := some ⟨discType, discPath, ordered, rules⟩ }

/-- Replace the first occurrence of `old` in a list (value-level counterpart of mutating
the element object in place through its reference). -/
def replaceElement : List ElementDefinition → ElementDefinition → ElementDefinition →
    List ElementDefinition
  | [], _, _ => []
  | a :: rest, old, new => if a = old then new :: rest else a :: replaceElement rest old new

/-- Modelled from the spec: `ElementDefinition.addSlice(name, type)` (§4.3;
ElementDefinition.ts is not under `src/`) — create the child node representing the slice
(id extended with `:name`, `sliceName` set, allowed types narrowed to the resolved type)
and insert it via `addElement`; re-invoking for an already-present slice returns the
existing node instead of duplicating it (the specified idempotence). -/
def ElementDefinition.addSlice (parent : ElementDefinition) (name : String)
    (t : ElementDefinitionType) (sd : StructureDefinition) :
    ElementDefinition × StructureDefinition :=
  match sd.elements.find? (fun e => e.path == parent.path && e.sliceName == some name) with
  | some existing => (existing, sd)
  | none =>
    let slice : ElementDefinition :=
      { parent with id := parent.id ++ ":" ++ name, sliceName := some name,
                    type := [t], slicing := none }
    (slice, sd.addElement slice)

/-- A parsed FSH path token: a base name plus, when present, its bracket tokens. -/
structure PathPart where
  base : String
  brackets : Option (List String) := none
deriving DecidableEq

/-- `parseFSHPath`: split the path on `.`; within each token split off `[...]` groups,
except that a token ending in the literal `[x]` is kept whole. -/
def StructureDefinition.parseFSHPath (fshPath : String) : List PathPart :=
  (jsSplit fshPath '.').map (fun pathPart =>
    let splitPathPart := jsSplit pathPart '['
    if splitPathPart.length == 1 || jsEndsWith pathPart "[x]" then
      { base := pathPart }
    else
      { base := splitPathPart.headD "",
        brackets := some ((splitPathPart.drop 1).map (fun s => jsDropRight s 1)) })

/-- The per-element test of `sliceMatchingValueX`'s search: the element's path ends in
`[x]` and replacing the `[x]` by the capitalized form of one of its type codes reproduces
the running path. -/
def xElementMatches (fhirPath : String) (e : ElementDefinition) : Bool :=
  jsEndsWith e.path "[x]" &&
    e.type.any (fun t => jsDropRight e.path 3 ++ jsCapitalize t.code == fhirPath)

/-- `sliceMatchingValueX`: look for a matching choice (`[x]`) element; if found, slice it
(type discriminator on `$this`, unordered, open), add the concrete-type slice named after
the final path segment, and return the new slice together with the updated resource. -/
def StructureDefinition.sliceMatchingValueX (sd : StructureDefinition) (fhirPath : String)
    (elements : List ElementDefinition) :
    Option (ElementDefinition × StructureDefinition) :=
  match elements.find? (xElementMatches fhirPath) with
  | none => none
  | some matchingXElement =>
    match matchingXElement.type.find?
        (fun t => jsDropRight matchingXElement.path 3 ++ jsCapitalize t.code == fhirPath) with
    | none => none
    | some matchingType =>
      let sliced := matchingXElement.sliceIt "type" "$this" false "open"
      let sd1 := { sd with elements := replaceElement sd.elements matchingXElement sliced }
      let sliceName := afterLastDot fhirPath
      some (sliced.addSlice sliceName matchingType sd1)

/-- `findMatchingSlice`: an element whose `sliceName` equals the bracket tokens joined by
`/` (re-slices are `/`-joined chains). -/
def StructureDefinition.findMatchingSlice (pathPart : PathPart)
    (elements : List ElementDefinition) : Option ElementDefinition :=
  elements.find? (fun e => e.sliceName == some (jsJoin "/" (pathPart.brackets.getD [])))

/-- The per-element test of `findMatchingRef`'s search. For a multi-token bracket group the
candidate's `sliceName` must equal the all-but-last tokens joined by `/`; that check is
bypassed for single-token groups. The body of the source's `for (const t of e.type)` loop
ends in an unconditional `return`, so only the FIRST entry of `e.type` is ever examined: it
must be a `Reference` type with a defined `targetProfile` containing an identifier whose
final `/`-segment, with any `|version` suffix removed, equals the last bracket token (the
JS `find` result is the matched string itself, so a matched empty string is falsy). -/
def refMatches (pathPart : PathPart) (e : ElementDefinition) : Bool :=
  let brackets := pathPart.brackets.getD []
  if brackets.length == 1 || e.sliceName == some (jsJoin "/" brackets.dropLast) then
    match e.type with
    | [] => false
    | t :: _ =>
      t.code == "Reference" &&
        match t.targetProfile with
        | none => false
        | some tps =>
          match tps.find? (fun tp =>
              let refName := brackets.getLastD ""
              let tpRefName := (jsSplit tp '/').getLastD ""
              (jsSplit tpRefName '|').headD "" == refName) with
          | some tp => tp != ""
          | none => false
  else false

/-- `findMatchingRef`: the first element passing `refMatches`. -/
def StructureDefinition.findMatchingRef (pathPart : PathPart)
    (elements : List ElementDefinition) : Option ElementDefinition :=
  elements.find? (refMatches pathPart)

/-- The fast-path test of `findElementByPath`: some element's `path` already equals
`${type}.${path}` — or equals `type` itself when the path is empty (in JS the empty-path
comparison is against the raw `this.type` value, so an undefined `type` matches nothing). -/
def fastPathMatch (sd : StructureDefinition) (path : String) (e : ElementDefinition) : Bool :=
  if path == "" then sd.type == some e.path
  else e.path == jsTemplate sd.type ++ "." ++ path

/-- The token-walking loop of `findElementByPath` (lines 136–188 of the source): narrow the
candidate set token by token, falling back to choice-type slicing and then to unfolding
when the narrowing comes up empty, then apply bracket groups (named slice first, reference
target second). `none` in the first component is the source's early `return` (resolution
failure, keeping all mutations made so far); `some` carries the final running type-path and
surviving candidates to the exact-path filter. -/
def StructureDefinition.fepLoop (resolve : ResolveFn) :
    List PathPart → String → List ElementDefinition → StructureDefinition →
    Option (String × List ElementDefinition) × StructureDefinition
  | [], fhirPathString, matchingElements, sd => (some (fhirPathString, matchingElements), sd)
  | pathPart :: rest, fhirPathString, matchingElements, sd =>
    let fps := fhirPathString ++ "." ++ pathPart.base
    let newMatching := matchingElements.filter (fun e => jsStartsWith e.path fps)
    let afterSlice :=
      if newMatching.isEmpty then
        match sd.sliceMatchingValueX fps matchingElements with
        | some (newSlice, sd1) => ([newSlice], newSlice.path, sd1)
        | none => (([] : List ElementDefinition), fps, sd)
      else (newMatching, fps, sd)
    match afterSlice with
    | (nm1, fps1, sd1) =>
      let afterUnfold :=
        if nm1.isEmpty then
          match matchingElements with
          | [only] =>
            match only.unfold resolve sd1 with
            | (newElements, sd2) =>
              if newElements.isEmpty then (([] : List ElementDefinition), sd2)
              else (newElements.filter (fun e => jsStartsWith e.path fps1), sd2)
          | _ => (([] : List ElementDefinition), sd1)
        else (nm1, sd1)
      match afterUnfold with
      | (nm2, sd2) =>
        if nm2.isEmpty then (none, sd2)
        else
          match pathPart.brackets with
          | none => StructureDefinition.fepLoop resolve rest fps1 nm2 sd2
          | some _ =>
            match StructureDefinition.findMatchingSlice pathPart nm2 with
            | some sliceElement =>
              StructureDefinition.fepLoop resolve rest fps1
                (sliceElement :: sliceElement.childrenIn sd2) sd2
            | none =>
              match StructureDefinition.findMatchingRef pathPart nm2 with
              | some refElement =>
                StructureDefinition.fepLoop resolve rest fps1
                  (refElement :: refElement.childrenIn sd2) sd2
              | none => (none, sd2)

/-- The exact-path filter ending `findElementByPath` (lines 190–193): discard surviving
candidates whose path is not exactly the final running path, and succeed only when exactly
one candidate remains. -/
def StructureDefinition.finalize (fhirPathString : String)
    (matchingElements : List ElementDefinition) : Option ElementDefinition :=
  match matchingElements.filter (fun e => e.path == fhirPathString) with
  | [e] => some e
  | _ => none

/-- `findElementByPath(path, resolve)`: fast path on an exact existing `path`, otherwise
parse the FSH path and run the token-walking loop followed by the exact-path filter. The
second component is the resource after any slicing/unfolding the resolution performed. -/
def StructureDefinition.findElementByPath (sd : StructureDefinition) (path : String)
    (resolve : ResolveFn) : Option ElementDefinition × StructureDefinition :=
  match sd.elements.find? (fastPathMatch sd path) with
  | some m => (some m, sd)
  | none =>
    match StructureDefinition.fepLoop resolve (StructureDefinition.parseFSHPath path)
        (jsTemplate sd.type) sd.elements sd with
    | (some (fps, mes), sd1) => (StructureDefinition.finalize fps mes, sd1)
    | (none, sd1) => (none, sd1)

/-- Modelled from the spec: the element-level JSON shape rebuilt/emitted by the Codec
(§4.6; ElementDefinition.ts is not under `src/`): one JSON object per element carrying the
element's serializable attributes. -/
structure ElementDefinitionJSON where
  id : String
  path : String
  sliceName : Option String := none
  min : Option Nat := none
  max : Option String := none
  type : List ElementDefinitionType := []
  mustSupport : Option Bool := none
  isModifier : Option Bool := none
  isSummary : Option Bool := none
  fixedValue : Option String := none
  binding : Option String := none
  slicing : Option ElementSlicing := none
deriving DecidableEq

/-- Modelled from the spec: `ElementDefinition.toJSON()` — serialize the element's
attributes (the back-reference is never serialized). -/
def ElementDefinition.toJSON (e : ElementDefinition) : ElementDefinitionJSON :=
  { id := e.id, path := e.path, sliceName := e.sliceName, min := e.min, max := e.max,
    type := e.type, mustSupport := e.mustSupport, isModifier := e.isModifier,
    isSummary := e.isSummary, fixedValue := e.fixedValue, binding := e.binding,
    slicing := e.slicing }

/-- Modelled from the spec: `ElementDefinition.fromJSON(el)` — rebuild an element from its
JSON attributes. -/
def ElementDefinition.fromJSON (j : ElementDefinitionJSON) : ElementDefinition :=
  { id := j.id, path := j.path, sliceName := j.sliceName, min := j.min, max := j.max,
    type := j.type, mustSupport := j.mustSupport, isModifier := j.isModifier,
    isSummary := j.isSummary, fixedValue := j.fixedValue, binding := j.binding,
    slicing := j.slicing }

/-- Modelled from the spec: `hasDiff` (§4.6; the DiffCalculator lives in
ElementDefinition.ts, which is not under `src/`) — whether the node carries a locally
introduced constraint; represented abstractly as the presence of a locally-set constraint
field (no claim in this development depends on the differential). -/
def ElementDefinition.hasDiff (e : ElementDefinition) : Bool :=
  e.fixedValue.isSome || e.binding.isSome || e.slicing.isSome || e.sliceName.isSome

/-- Modelled from the spec: `calculateDiff` (§4.6) — the minimal differential view of a
node; represented abstractly as the node itself (no claim in this development depends on
the differential's minimal-view projection). -/
def ElementDefinition.calculateDiff (e : ElementDefinition) : ElementDefinition := e

/-- The `snapshot` / `differential` JSON shape: `{ element: [...] }`, with the element
array possibly absent (`undefined`). A present empty array is JS-truthy, so presence is
what the import checks. -/
structure SnapshotJSON where
  element : Option (List ElementDefinitionJSON) := none
deriving DecidableEq

/-- `LooseStructDefJSON`: the barebones StructureDefinition JSON shape — `resourceType`,
the passthrough metadata fields, and the optional snapshot and differential. -/
structure LooseStructDefJSON where
  resourceType : String
  id : Option String := none
  meta : Option String := none
  implicitRules : Option String := none
  language : Option String := none
  text : Option String := none
  contained : Option String := none
  extension : Option String := none
  modifierExtension : Option String := none
  url : Option String := none
  identifier : Option String := none
  version : Option String := none
  name : Option String := none
  title : Option String := none
  status : Option String := none
  experimental : Option String := none
  date : Option String := none
  publisher : Option String := none
  contact : Option String := none
  description : Option String := none
  useContext : Option String := none
  jurisdiction : Option String := none
  purpose : Option String := none
  copyright : Option String := none
  keyword : Option String := none
  fhirVersion : Option String := none
  mapping : Option String := none
  kind : Option String := none
  abstract : Option String := none
  context : Option String := none
  contextInvariant : Option String := none
  type : Option String := none
  baseDefinition : Option String := none
  derivation : Option String := none
  snapshot : Option SnapshotJSON := none
  differential : Option SnapshotJSON := none
deriving DecidableEq

/-- `toJSON()`: emit `resourceType`, copy every defined passthrough property verbatim,
then set `snapshot.element` to every element in tree order and `differential.element` to
the diff views of the elements where `hasDiff` holds, in the same relative order. -/
def StructureDefinition.toJSON (sd : StructureDefinition) : LooseStructDefJSON :=
  { resourceType := "StructureDefinition",
    id := sd.id, meta := sd.meta, implicitRules := sd.implicitRules,
    language := sd.language, text := sd.text, contained := sd.contained,
    extension := sd.extension, modifierExtension := sd.modifierExtension,
    url := sd.url, identifier := sd.identifier, version := sd.version,
    name := sd.name, title := sd.title, status := sd.status,
    experimental := sd.experimental, date := sd.date, publisher := sd.publisher,
    contact := sd.contact, description := sd.description, useContext := sd.useContext,
    jurisdiction := sd.jurisdiction, purpose := sd.purpose, copyright := sd.copyright,
    keyword := sd.keyword, fhirVersion := sd.fhirVersion, mapping := sd.mapping,
    kind := sd.kind, abstract := sd.abstract, context := sd.context,
    contextInvariant := sd.contextInvariant, type := sd.type,
    baseDefinition := sd.baseDefinition, derivation := sd.derivation,
    snapshot := some { element := some (sd.elements.map ElementDefinition.toJSON) },
    differential := some { element := some ((sd.elements.filter
      ElementDefinition.hasDiff).map (fun e => e.calculateDiff.toJSON)) } }

/-- `fromJSON(json)`: construct a fresh StructureDefinition, copy every defined
passthrough property verbatim (never reading `resourceType`), then truncate the element
list (`sd.elements.length = 0` — this discards the constructor's synthetic root) and
rebuild it strictly from `snapshot.element` when that array is present (the differential
is thrown away). -/
def StructureDefinition.fromJSON (json : LooseStructDefJSON) : StructureDefinition :=
  let sd := StructureDefinition.new
  let sd :=
    { sd with
      id := json.id, meta := json.meta, implicitRules := json.implicitRules,
      language := json.language, text := json.text, contained := json.contained,
      extension := json.extension, modifierExtension := json.modifierExtension,
      url := json.url, identifier := json.identifier, version := json.version,
      name := json.name, title := json.title, status := json.status,
      experimental := json.experimental, date := json.date, publisher := json.publisher,
      contact := json.contact, description := json.description,
      useContext := json.useContext, jurisdiction := json.jurisdiction,
      purpose := json.purpose, copyright := json.copyright, keyword := json.keyword,
      fhirVersion := json.fhirVersion, mapping := json.mapping, kind := json.kind,
      abstract := json.abstract, context := json.context,
      contextInvariant := json.contextInvariant, type := json.type,
      baseDefinition := json.baseDefinition, derivation := json.derivation }
  { sd with
    elements :=
      match json.snapshot with
      | some snap =>
        match snap.element with
        | some els => els.map ElementDefinition.fromJSON
        | none => []
      | none => [] }

/-- Element-level codec roundtrip: rebuilding an element from its JSON and reserializing it
is the identity on the JSON. -/
theorem edToJSON_fromJSON (j : ElementDefinitionJSON) :
    (ElementDefinition.fromJSON j).toJSON = j := rfl

/-- C7: for every resource populated only via snapshot import (that is, `fromJSON j`), the
snapshot element list of `toJSON (fromJSON (toJSON r))` is identical, in order and content,
to the snapshot element list of `toJSON r`. -/
theorem claim_C7_snapshot_roundtrip (j : LooseStructDefJSON) :
    (StructureDefinition.toJSON (StructureDefinition.fromJSON
        (StructureDefinition.toJSON (StructureDefinition.fromJSON j)))).snapshot =
      (StructureDefinition.toJSON (StructureDefinition.fromJSON j)).snapshot := by
  simp [StructureDefinition.toJSON, StructureDefinition.fromJSON, List.map_map,
    Function.comp_def, edToJSON_fromJSON]

/-- The element of the C3 counterexample's snapshot. -/
def c3ElementJSON : ElementDefinitionJSON := { id := "Patient.name", path := "Patient.name" }

/-- A JSON input whose resourceType is not "StructureDefinition" but which carries a
populated snapshot. -/
def c3JSON : LooseStructDefJSON :=
  { resourceType := "Patient", type := some "Patient",
    snapshot := some { element := some [c3ElementJSON] } }

/-- C3 counterexample: `fromJSON` applied to an input whose resourceType is `"Patient"`
still produces an ordinary rebuilt resource — the snapshot is rebuilt and the metadata
copied — so the resourceType requirement is not enforced at the import boundary. -/
theorem claim_C3_counterexample :
    c3JSON.resourceType ≠ "StructureDefinition" ∧
      (StructureDefinition.fromJSON c3JSON).elements =
        [ElementDefinition.fromJSON c3ElementJSON] ∧
      (StructureDefinition.fromJSON c3JSON).type = some "Patient" :=
  ⟨by decide, rfl, rfl⟩

/-- C3 amended: `fromJSON` performs no resourceType check at all — its result is
completely independent of the input's `resourceType` field, and every input is rebuilt
ordinarily regardless of that field's value. -/
theorem claim_C3_amended (j : LooseStructDefJSON) (rt : String) :
    StructureDefinition.fromJSON { j with resourceType := rt } =
      StructureDefinition.fromJSON j := rfl

/-- A JSON input with no snapshot at all. -/
def c4JSON : LooseStructDefJSON := { resourceType := "StructureDefinition" }

/-- C4 counterexample: importing a JSON without a populated `snapshot.element` yields a
resource with an EMPTY element list — not one containing only the synthetic root (the
importer truncates the constructor's element list before checking the snapshot). -/
theorem claim_C4_counterexample :
    (StructureDefinition.fromJSON c4JSON).elements = [] ∧
      StructureDefinition.new.elements ≠ [] :=
  ⟨rfl, by decide⟩

/-- C4 amended: for every input JSON lacking a populated `snapshot.element`, `fromJSON`
yields a resource whose element list is empty: the constructor's synthetic root is
discarded by the `sd.elements.length = 0` truncation and nothing replaces it. -/
theorem claim_C4_amended (j : LooseStructDefJSON)
    (h : j.snapshot = none ∨ ∃ s, j.snapshot = some s ∧ s.element = none) :
    (StructureDefinition.fromJSON j).elements = [] := by
  rcases h with h | ⟨s, hs, he⟩
  · simp [StructureDefinition.fromJSON, h]
  · simp [StructureDefinition.fromJSON, hs, he]

/-- C4 witness: the amended import behaviour at the concrete snapshot-less input. -/
theorem claim_C4_witness : (StructureDefinition.fromJSON c4JSON).elements = [] :=
  claim_C4_amended c4JSON (Or.inl rfl)

/-- The bracket group `foo[a][b][Patient]` of the C5 scenario. -/
def c5PathPart : PathPart := { base := "foo", brackets := some ["a", "b", "Patient"] }

/-- A reference type targeting the Patient profile, with a version suffix on the stored
identifier. -/
def c5RefType : ElementDefinitionType :=
  { code := "Reference",
    targetProfile := some ["http://hl7.org/fhir/StructureDefinition/Patient|4.0.1"] }

/-- A non-reference type. -/
def c5StringType : ElementDefinitionType := { code := "string" }

/-- The C5 failing candidate: sliceName `a/b` as required, and a matching Reference type —
but in SECOND position of the type list. -/
def c5BugElement : ElementDefinition :=
  { id := "X.foo", path := "X.foo", sliceName := some "a/b",
    type := [c5StringType, c5RefType] }

/-- The same candidate with the matching Reference type in first position. -/
def c5OkElement : ElementDefinition :=
  { id := "X.foo", path := "X.foo", sliceName := some "a/b",
    type := [c5RefType, c5StringType] }

/-- The same bracket group with a version suffix on the final bracket token. -/
def c5VersionedPathPart : PathPart :=
  { base := "foo", brackets := some ["a", "b", "Patient|4.0.1"] }

/-- C5 (code bug): the source's `for (const t of e.type)` loop returns unconditionally on
its first iteration, so `findMatchingRef` examines only the FIRST allowed type of each
candidate. At the failing input — a candidate with the required sliceName `a/b` whose type
list is `[string, Reference(..Patient|4.0.1)]` — it finds no match (first conjunct), even
though the very same candidate matches once the Reference type is first (second conjunct).
The other parts of the claim hold: with the Reference first the version suffix is stripped
from the stored identifier and bracket `Patient` matches, a bracket token carrying its own
version suffix does not match (third conjunct), and a multi-token bracket group with the
wrong sliceName does not match (fourth conjunct). -/
theorem claim_C5_first_type_only :
    StructureDefinition.findMatchingRef c5PathPart [c5BugElement] = none ∧
      StructureDefinition.findMatchingRef c5PathPart [c5OkElement] = some c5OkElement ∧
      StructureDefinition.findMatchingRef c5VersionedPathPart [c5OkElement] = none ∧
      StructureDefinition.findMatchingRef c5PathPart
        [{ c5OkElement with sliceName := some "a/c" }] = none := by
  refine ⟨by decide, by decide, by decide, by decide⟩

/-- Auxiliary: `find?` returns the element at the first index satisfying the predicate. -/
theorem find?_eq_of_first (p : α → Bool) :
    ∀ (l : List α) (i : Nat) (hi : i < l.length), p l[i] = true →
      (∀ k, (hk : k < l.length) → k < i → p l[k] = false) → l.find? p = some l[i] := by
  intro l
  induction l with
  | nil => intro i hi; simp at hi
  | cons a t ih =>
    intro i hi hp hfirst
    cases i with
    | zero =>
      have hpa : p a = true := by simpa using hp
      simp [List.find?, hpa]
    | succ j =>
      have ha : p a = false := hfirst 0 (by simp) (by omega)
      have ht := ih j (by simpa using hi) (by simpa using hp)
        (fun k hk hki => hfirst (k + 1) (by simpa using hk) (by omega))
      simp [List.find?, ha, ht]

/-- C9: when some element's `path` already equals `${type}.${path}` (or `type` for the
empty path), `findElementByPath` takes the fast path: it returns the FIRST such element in
tree order and returns the resource unchanged — no slicing and no unfolding occurs. -/
theorem claim_C9_fast_path (sd : StructureDefinition) (path : String) (resolve : ResolveFn)
    (i : Nat) (hi : i < sd.elements.length)
    (hmatch : fastPathMatch sd path sd.elements[i] = true)
    (hfirst : ∀ k, (hk : k < sd.elements.length) → k < i →
      fastPathMatch sd path sd.elements[k] = false) :
    sd.findElementByPath path resolve = (some sd.elements[i], sd) := by
  have hfind := find?_eq_of_first (fastPathMatch sd path) sd.elements i hi hmatch hfirst
  simp [StructureDefinition.findElementByPath, hfind]

/-- Elements of the C9 witness: the second and third both carry the looked-up path. -/
def c9Root : ElementDefinition := { id := "T", path := "T" }

/-- First element with path `T.a`. -/
def c9First : ElementDefinition := { id := "T.a", path := "T.a", min := some 1 }

/-- Second element with path `T.a` (a duplicate-path stray). -/
def c9Second : ElementDefinition := { id := "T.a:slice", path := "T.a" }

/-- The C9 witness resource. -/
def c9SD : StructureDefinition :=
  { type := some "T", elements := [c9Root, c9First, c9Second] }

/-- C9 witness: at the concrete resource, looking up `a` returns the first of the two
elements whose path is `T.a` and leaves the resource untouched. -/
theorem claim_C9_witness :
    c9SD.findElementByPath "a" (fun _ => none) = (some c9First, c9SD) :=
  claim_C9_fast_path c9SD "a" (fun _ => none) 1 (by decide) (by decide)
    (fun k hk hki => by
      have hk0 : k = 0 := by omega
      subst hk0
      show fastPathMatch c9SD "a" c9Root = false
      decide)

/-- C10: when a path token carries exactly one bracket token, the reference-matching test
imposes no sliceName requirement at all — the candidate test is independent of the
candidate's `sliceName` (the equality check is short-circuited by the length-one case). -/
theorem claim_C10_single_bracket (pathPart : PathPart) (c : String)
    (hbr : pathPart.brackets = some [c]) (e : ElementDefinition) (s : Option String) :
    refMatches pathPart { e with sliceName := s } = refMatches pathPart e := by
  simp [refMatches, hbr]

/-- The single-bracket group `foo[Patient]` of the C10 witness. -/
def c10PathPart : PathPart := { base := "foo", brackets := some ["Patient"] }

/-- The C10 witness candidate: note its sliceName is NOT `""` (no sliceName at all). -/
def c10Element : ElementDefinition :=
  { id := "X.foo", path := "X.foo", sliceName := none,
    type := [{ code := "Reference",
               targetProfile := some ["http://hl7.org/fhir/StructureDefinition/Patient"] }] }

/-- C10 witness: at the concrete single-bracket group, changing the candidate's sliceName
does not change the reference-matching test. -/
theorem claim_C10_witness :
    refMatches c10PathPart { c10Element with sliceName := some "anything" } =
      refMatches c10PathPart c10Element :=
  claim_C10_single_bracket c10PathPart "Patient" rfl c10Element (some "anything")

/-- C2: whenever the non-fast-path route is taken and the token-walking loop completes
with final running path `fps` and surviving candidates `mes`, `findElementByPath` returns
exactly the result of the exact-path filter `finalize fps mes` over that state; that
filter yields a node only when exactly ONE candidate has path equal to the final running
path, and whenever two or more candidates survive the exact-path filtering it yields
not-found rather than picking one arbitrarily. -/
theorem claim_C2_exact_path_filter (sd : StructureDefinition) (path : String)
    (resolve : ResolveFn) (fps : String) (mes : List ElementDefinition)
    (sd1 : StructureDefinition)
    (hfast : sd.elements.find? (fastPathMatch sd path) = none)
    (hloop : StructureDefinition.fepLoop resolve (StructureDefinition.parseFSHPath path)
        (jsTemplate sd.type) sd.elements sd = (some (fps, mes), sd1)) :
    sd.findElementByPath path resolve = (StructureDefinition.finalize fps mes, sd1) ∧
      (∀ r, StructureDefinition.finalize fps mes = some r →
        mes.filter (fun e => e.path == fps) = [r]) ∧
      (2 ≤ (mes.filter (fun e => e.path == fps)).length →
        StructureDefinition.finalize fps mes = none) := by
  refine ⟨?_, ?_, ?_⟩
  · simp [StructureDefinition.findElementByPath, hfast, hloop]
  · intro r hr
    unfold StructureDefinition.finalize at hr
    rcases hfil : mes.filter (fun e => e.path == fps) with _ | ⟨a, _ | ⟨b, t⟩⟩ <;>
      rw [hfil] at hr
    · exact absurd hr (by simp)
    · have har : a = r := by simpa using hr
      rw [hfil, har]
    · exact absurd hr (by simp)
  · intro hlen
    unfold StructureDefinition.finalize
    rcases hfil : mes.filter (fun e => e.path == fps) with _ | ⟨a, _ | ⟨b, t⟩⟩ <;>
      rw [hfil] at hlen <;> simp_all

/-- Root element of the C2 witness resource. -/
def c2Root : ElementDefinition := { id := "Observation", path := "Observation" }

/-- Choice element `Observation.value[x]` of the C2 witness, allowing Quantity and string. -/
def c2ValueX : ElementDefinition :=
  { id := "Observation.value[x]", path := "Observation.value[x]",
    type := [{ code := "Quantity" }, { code := "string" }] }

/-- The C2 witness resource. -/
def c2SD : StructureDefinition :=
  { type := some "Observation", elements := [c2Root, c2ValueX] }

/-- The choice element after being sliced by the resolution. -/
def c2ValueXSliced : ElementDefinition :=
  { c2ValueX with
    slicing := some { discriminatorType := "type", discriminatorPath := "$this",
                      ordered := false, rules := "open" } }

/-- The concrete-type slice the resolution creates. -/
def c2Slice : ElementDefinition :=
  { id := "Observation.value[x]:valueString", path := "Observation.value[x]",
    sliceName := some "valueString", type := [{ code := "string" }] }

/-- The C2 witness resource after resolution. -/
def c2SD1 : StructureDefinition :=
  { c2SD with elements := [c2Root, c2ValueXSliced, c2Slice] }

/-- C2 witness: at the concrete choice-slicing input (where the final running path differs
from the plain concatenation, so the exact-path filter is exercised), `findElementByPath`
returns exactly the exact-path filter of the loop's final state. -/
theorem claim_C2_witness :
    c2SD.findElementByPath "valueString" (fun _ => none) =
      (StructureDefinition.finalize "Observation.value[x]" [c2Slice], c2SD1) :=
  (claim_C2_exact_path_filter c2SD "valueString" (fun _ => none) "Observation.value[x]"
    [c2Slice] c2SD1 (by decide) (by decide)).1

/-- Root element of the C6 scenario. -/
def c6Root : ElementDefinition := { id := "Observation", path := "Observation" }

/-- Choice element `Observation.value[x]` of the C6 scenario, allowing Quantity and
string. -/
def c6ValueX : ElementDefinition :=
  { id := "Observation.value[x]", path := "Observation.value[x]",
    type := [{ code := "Quantity" }, { code := "string" }] }

/-- The C6 scenario resource before any resolution. -/
def c6SD : StructureDefinition :=
  { type := some "Observation", elements := [c6Root, c6ValueX] }

/-- The choice element after the first resolution sliced it (type discriminator on
`$this`, unordered, open). -/
def c6ValueXSliced : ElementDefinition :=
  { c6ValueX with
    slicing := some { discriminatorType := "type", discriminatorPath := "$this",
                      ordered := false, rules := "open" } }

/-- The single slice node the first resolution creates for `valueString`. -/
def c6Slice : ElementDefinition :=
  { id := "Observation.value[x]:valueString", path := "Observation.value[x]",
    sliceName := some "valueString", type := [{ code := "string" }] }

/-- The C6 scenario resource after the first resolution. -/
def c6SD1 : StructureDefinition :=
  { c6SD with elements := [c6Root, c6ValueXSliced, c6Slice] }

/-- C6: resolving the choice-typed path `valueString` against a `value[x]` element whose
allowed types include `string` creates one slice; resolving the SAME path a second time
returns the SAME single slice node and leaves the resource unchanged — no duplicate slice
is created (for any resolver: the slicing route never consults it). -/
theorem claim_C6_choice_slice_idempotent (resolve : ResolveFn) :
    c6SD.findElementByPath "valueString" resolve = (some c6Slice, c6SD1) ∧
      c6SD1.findElementByPath "valueString" resolve = (some c6Slice, c6SD1) :=
  ⟨rfl, rfl⟩

/-- Root element of the C8 scenario. -/
def c8Root : ElementDefinition := { id := "Observation", path := "Observation" }

/-- The `Observation.component` element of the C8 scenario, of backbone type `CompBB`,
whose children are not yet present. -/
def c8Comp : ElementDefinition :=
  { id := "Observation.component", path := "Observation.component",
    type := [{ code := "CompBB" }] }

/-- The C8 scenario resource before any resolution. -/
def c8SD : StructureDefinition :=
  { type := some "Observation", elements := [c8Root, c8Comp] }

/-- The StructureDefinition of the backbone type `CompBB` (with children `code` and
`value`), served by the resolver. -/
def compSD : StructureDefinition :=
  { type := some "CompBB",
    elements := [ { id := "CompBB", path := "CompBB" },
                  { id := "CompBB.code", path := "CompBB.code" },
                  { id := "CompBB.value", path := "CompBB.value" } ] }

/-- The C8 resolver: it can resolve exactly the type `CompBB`. -/
def c8Resolve : ResolveFn := fun s => if s == "CompBB" then some compSD else none

/-- The copy of `CompBB.code` unfolded under `Observation.component`. -/
def c8CompCode : ElementDefinition :=
  { id := "Observation.component.code", path := "Observation.component.code" }

/-- The copy of `CompBB.value` unfolded under `Observation.component`. -/
def c8CompValue : ElementDefinition :=
  { id := "Observation.component.value", path := "Observation.component.value" }

/-- The C8 scenario resource after the failed resolution: the unfolded children remain. -/
def c8SD1 : StructureDefinition :=
  { c8SD with elements := [c8Root, c8Comp, c8CompCode, c8CompValue] }

/-- C8: resolving `component.bogus` fails on the second token AFTER the first token made
the loop unfold `Observation.component` — the resolution returns not-found, yet the
unfolded children remain in the tree (first two conjuncts: the post-state is exactly the
original elements plus the two copies, not rolled back). A second resolution of the same
path is idempotent: it fails again and leaves the tree exactly as it was (third conjunct:
the already-present children mean the single-candidate unfold step never re-fires), and
the already-unfolded path prefix `component` now resolves successfully without touching
the tree (fourth conjunct). -/
theorem claim_C8_no_rollback_idempotent :
    c8SD.findElementByPath "component.bogus" c8Resolve = (none, c8SD1) ∧
      c8SD1.elements = [c8Root, c8Comp, c8CompCode, c8CompValue] ∧
      c8SD1.findElementByPath "component.bogus" c8Resolve = (none, c8SD1) ∧
      c8SD1.findElementByPath "component" c8Resolve = (some c8Comp, c8SD1) :=
  ⟨rfl, rfl, rfl, rfl⟩

/-- `a` properly extends `b`: `b` is a prefix of `a`'s character sequence and `a ≠ b`
(the plain-string reading of "prefix extension", which is what `startsWith` compares). -/
def IdExt (a b : List Char) : Prop := b <+: a ∧ a ≠ b

instance instDecidableIdExt (a b : List Char) : Decidable (IdExt a b) :=
  inferInstanceAs (Decidable (b <+: a ∧ a ≠ b))

/-- `a` is a dotted-prefix extension of `b`: `a` continues `b` with a `'.'` (the literal
reading of the claim's "dotted-prefix extension"). -/
def DottedExt (a b : List Char) : Prop := (b ++ ['.']) <+: a

instance instDecidableDottedExt (a b : List Char) : Decidable (DottedExt a b) :=
  inferInstanceAs (Decidable ((b ++ ['.']) <+: a))

/-- No id in the list properly extends the id of a LATER element (ancestors never come
after their descendants). -/
def NoEarlyExt (L : List (List Char)) : Prop :=
  ∀ i, (hi : i < L.length) → ∀ j, (hj : j < L.length) → i < j → ¬ IdExt L[i] L[j]

/-- Between an element and any later extension of it, every id is also an extension of it
(each element's extensions form a contiguous run immediately after it). -/
def ContiguousExt (L : List (List Char)) : Prop :=
  ∀ i, (hi : i < L.length) → ∀ m, (hm : m < L.length) → ∀ j, (hj : j < L.length) →
    i < m → m < j → IdExt L[j] L[i] → IdExt L[m] L[i]

/-- The ordering invariant `addElement` maintains: distinct ids, ancestors before
descendants, and contiguous extension runs. -/
def TreeInv (L : List (List Char)) : Prop := L.Nodup ∧ NoEarlyExt L ∧ ContiguousExt L

/-- The id sequences of a resource's elements. -/
def idsData (sd : StructureDefinition) : List (List Char) :=
  sd.elements.map (fun e => e.id.data)

/-- The claim's child-locality invariant, read literally with "dotted-prefix extension":
every dotted extension of a node's id sits strictly after that node, in a contiguous run. -/
def DottedChildLocality (sd : StructureDefinition) : Prop :=
  ∀ i, (hi : i < (idsData sd).length) → ∀ j, (hj : j < (idsData sd).length) →
    DottedExt (idsData sd)[j] (idsData sd)[i] →
    i < j ∧ ∀ m, (hm : m < (idsData sd).length) → i < m → m ≤ j →
      DottedExt (idsData sd)[m] (idsData sd)[i]

/-- Child-locality with "prefix extension" read as the plain string-prefix relation the
code actually compares: every extension of a node's id sits strictly after that node, in a
contiguous run immediately following it (hence before the node's next non-extension). -/
def PrefixChildLocality (sd : StructureDefinition) : Prop :=
  ∀ i, (hi : i < (idsData sd).length) → ∀ j, (hj : j < (idsData sd).length) →
    IdExt (idsData sd)[j] (idsData sd)[i] →
    i < j ∧ ∀ m, (hm : m < (idsData sd).length) → i < m → m ≤ j →
      IdExt (idsData sd)[m] (idsData sd)[i]

/-- The ordering discipline of the amended C1: each added element's id must not be a
prefix (nor a duplicate) of any id already present — ancestors are inserted before
descendants. -/
def goodAdds : StructureDefinition → List ElementDefinition → Bool
  | _, [] => true
  | sd, e :: rest =>
    sd.elements.all (fun f => !(e.id.data.isPrefixOf f.id.data)) &&
      goodAdds (sd.addElement e) rest

/-- Two prefixes of the same list are comparable. -/
theorem prefOrPref {α : Type} {a b x : List α} (h1 : a <+: x) (h2 : b <+: x) :
    a <+: b ∨ b <+: a :=
  List.prefix_or_prefix_of_prefix h1 h2

/-- Mutual prefixes are equal. -/
theorem prefAntisymm {α : Type} {a b : List α} (h1 : a <+: b) (h2 : b <+: a) : a = b :=
  h1.eq_of_length (Nat.le_antisymm h1.length_le h2.length_le)

/-- `insertAt` always grows the list by one. -/
theorem length_insertAt (n : Nat) (a : α) : ∀ l : List α,
    (insertAt n a l).length = l.length + 1 := by
  induction n with
  | zero => intro l; cases l <;> simp [insertAt]
  | succ m ih => intro l; cases l <;> simp [insertAt, ih]

/-- Membership in an inserted list. -/
theorem mem_insertAt (n : Nat) (a : α) : ∀ (l : List α) (b : α),
    b ∈ insertAt n a l ↔ b = a ∨ b ∈ l := by
  induction n with
  | zero => intro l b; cases l <;> simp [insertAt]
  | succ m ih =>
    intro l b
    cases l with
    | nil => simp [insertAt]
    | cons c t => simp [insertAt, ih t b]; tauto

/-- Elements of an inserted list, by position: before the insertion point they are the old
elements in place, at the insertion point sits the new element, and after it the old
elements shifted by one. -/
theorem insertAt_getElem_spec (a : α) : ∀ (n : Nat) (l : List α), n ≤ l.length →
    ∀ i, (hi : i < (insertAt n a l).length) →
      (i < n ∧ ∃ h : i < l.length, (insertAt n a l)[i] = l[i]) ∨
      (i = n ∧ (insertAt n a l)[i] = a) ∨
      (n < i ∧ ∃ h : i - 1 < l.length, (insertAt n a l)[i] = l[i - 1]) := by
  intro n
  induction n with
  | zero =>
    intro l _ i hi
    cases i with
    | zero => right; left; cases l <;> simp [insertAt]
    | succ k =>
      right; right
      refine ⟨by omega, ?_⟩
      cases l with
      | nil => simp [insertAt, length_insertAt] at hi
      | cons c t =>
        have hk : k < (c :: t).length := by
          have := hi; rw [length_insertAt] at this; omega
        exact ⟨hk, by simp [insertAt]⟩
  | succ m ih =>
    intro l hn i hi
    cases l with
    | nil => simp at hn
    | cons c t =>
      cases i with
      | zero => left; exact ⟨by omega, by omega, by simp [insertAt]⟩
      | succ k =>
        have hk : k < (insertAt m a t).length := by
          have := hi; simp [insertAt, length_insertAt] at this ⊢; omega
        rcases ih t (by simpa using hn) k hk with ⟨h1, h2, h3⟩ | ⟨h1, h2⟩ | ⟨h1, h2, h3⟩
        · left
          exact ⟨by omega, by simpa using h2, by simpa [insertAt] using h3⟩
        · right; left
          exact ⟨by omega, by simpa [insertAt] using h2⟩
        · right; right
          cases k with
          | zero => exact absurd h1 (by omega)
          | succ j =>
            refine ⟨by omega, ?_, ?_⟩
            · simp only [Nat.add_sub_cancel]
              simp only [List.length_cons]
              omega
            · have e1 : (insertAt (m + 1) a (c :: t))[j + 1 + 1] = (insertAt m a t)[j + 1] := by
                simp [insertAt]
              simp only [Nat.add_sub_cancel] at h3 ⊢
              rw [e1, h3]
              simp

/-- The insertion scan of `addElement` at the level of id character sequences. -/
def scanIds (x : List Char) (lm : List Char) : List (List Char) → Nat
  | [] => 0
  | c :: t =>
    if c <+: x then scanIds x c t + 1
    else if lm <+: c then scanIds x lm t + 1
    else 0

/-- `addElementIndex` computes exactly the data-level scan over the element ids. -/
theorem addElementIndex_eq_scanIds (x lm : String) : ∀ es : List ElementDefinition,
    addElementIndex x lm es = scanIds x.data lm.data (es.map (fun e => e.id.data)) := by
  intro es
  induction es generalizing lm with
  | nil => rfl
  | cons e t ih =>
    simp only [addElementIndex, scanIds, jsStartsWith, List.map_cons]
    by_cases h1 : e.id.data <+: x.data
    · simp [h1, ih]
    · by_cases h2 : lm.data <+: e.id.data
      · simp [h1, h2, ih]
      · simp [h1, h2]

/-- `insertAt` commutes with `map`. -/
theorem map_insertAt (f : α → β) (a : α) : ∀ (n : Nat) (l : List α),
    (insertAt n a l).map f = insertAt n (f a) (l.map f) := by
  intro n
  induction n with
  | zero => intro l; cases l <;> simp [insertAt]
  | succ m ih => intro l; cases l <;> simp [insertAt, ih]

/-- The ids after `addElement` are the insertion of the new id at the scan index. -/
theorem idsData_addElement (sd : StructureDefinition) (e : ElementDefinition) :
    idsData (sd.addElement e) =
      insertAt (scanIds e.id.data [] (idsData sd)) e.id.data (idsData sd) := by
  unfold idsData StructureDefinition.addElement
  simp only [map_insertAt]
  rw [addElementIndex_eq_scanIds]

/-- The scan never runs past the end of the list. -/
theorem scanIds_le_length (x : List Char) : ∀ (L : List (List Char)) (lm : List Char),
    scanIds x lm L ≤ L.length := by
  intro L
  induction L with
  | nil => intro lm; simp [scanIds]
  | cons c t ih =>
    intro lm
    simp only [scanIds, List.length_cons]
    by_cases h1 : c <+: x
    · rw [if_pos h1]
      have := ih c
      omega
    · rw [if_neg h1]
      by_cases h2 : lm <+: c
      · rw [if_pos h2]
        have := ih lm
        omega
      · rw [if_neg h2]
        omega

/-- When the head is an ancestor of the incoming id, every later ancestor of the incoming
id extends the head (ancestors of a fixed id, listed ancestors-first, form a chain). -/
theorem hK2_step (x c : List Char) (t : List (List Char))
    (_hnd : (c :: t).Nodup) (hne : NoEarlyExt (c :: t)) (hcx : c <+: x) :
    ∀ i, (hi : i < t.length) → t[i] <+: x → c <+: t[i] := by
  intro i hi hix
  rcases prefOrPref hix hcx with h | h
  · rcases eq_or_ne t[i] c with he | hne2
    · exact he ▸ List.prefix_refl c
    · exfalso
      have hlt : (0 : Nat) < i + 1 := by omega
      have := hne 0 (by simp) (i + 1) (by simp; omega) hlt
      exact this ⟨h, hne2.symm⟩
  · exact h

/-- Every element the scan passes extends the running `lastMatchId`. -/
theorem scanIds_passed_extend (x : List Char) : ∀ (L : List (List Char)) (lm : List Char),
    L.Nodup → NoEarlyExt L → lm <+: x →
    (∀ i, (hi : i < L.length) → L[i] <+: x → lm <+: L[i]) →
    ∀ i, (hi : i < L.length) → i < scanIds x lm L → lm <+: L[i] := by
  intro L
  induction L with
  | nil => intro lm _ _ _ _ i hi; simp at hi
  | cons c t ih =>
    intro lm hnd hne hlmx hK2 i hi hscan
    by_cases h1 : c <+: x
    · cases i with
      | zero => exact hK2 0 (by simp) h1
      | succ j =>
        have hlmc : lm <+: c := hK2 0 (by simp) h1
        have hj : j < t.length := by simpa using hi
        have hjs : j < scanIds x c t := by
          simp only [scanIds, h1, if_pos] at hscan; omega
        have hct : c <+: t[j] :=
          ih c (List.Nodup.of_cons hnd)
            (fun a ha b hb hab => hne (a + 1) (by simpa using ha) (b + 1) (by simpa using hb)
              (by omega))
            h1 (hK2_step x c t hnd hne h1) j hj hjs
        exact hlmc.trans hct
    · by_cases h2 : lm <+: c
      · cases i with
        | zero => exact h2
        | succ j =>
          have hj : j < t.length := by simpa using hi
          have hjs : j < scanIds x lm t := by
            simp only [scanIds, h1, h2, if_neg, if_pos, not_false_iff] at hscan; omega
          exact ih lm (List.Nodup.of_cons hnd)
            (fun a ha b hb hab => hne (a + 1) (by simpa using ha) (b + 1) (by simpa using hb)
              (by omega))
            hlmx
            (fun a ha hax => hK2 (a + 1) (by simpa using ha) hax) j hj hjs
      · simp [scanIds, h1, h2] at hscan

/-- When the scan stops strictly inside the list, the stop element is not an ancestor of
the incoming id, and either it does not extend the original `lastMatchId` or some earlier,
already-scanned element was an ancestor. -/
theorem scanIds_stop (x : List Char) : ∀ (L : List (List Char)) (lm : List Char),
    (hs : scanIds x lm L < L.length) →
    ¬ (L[scanIds x lm L] <+: x) ∧
      (¬ lm <+: L[scanIds x lm L] ∨
        ∃ p, ∃ hp : p < L.length, p < scanIds x lm L ∧ L[p] <+: x) := by
  intro L
  induction L with
  | nil => intro lm hs; simp [scanIds] at hs
  | cons c t ih =>
    intro lm hs
    by_cases h1 : c <+: x
    · have hseq : scanIds x lm (c :: t) = scanIds x c t + 1 := by
        simp [scanIds, h1]
      have hs' : scanIds x c t < t.length := by
        rw [hseq] at hs
        simpa using hs
      obtain ⟨ha, _⟩ := ih c hs'
      constructor
      · simp only [hseq, List.getElem_cons_succ]
        exact ha
      · right
        refine ⟨0, by simp, ?_, by simpa using h1⟩
        rw [hseq]
        omega
    · by_cases h2 : lm <+: c
      · have hseq : scanIds x lm (c :: t) = scanIds x lm t + 1 := by
          simp [scanIds, h1, h2]
        have hs' : scanIds x lm t < t.length := by
          rw [hseq] at hs
          simpa using hs
        obtain ⟨ha, hb⟩ := ih lm hs'
        constructor
        · simp only [hseq, List.getElem_cons_succ]
          exact ha
        · rcases hb with hb | ⟨p, hp, hps, hpx⟩
          · left
            simp only [hseq, List.getElem_cons_succ]
            exact hb
          · right
            refine ⟨p + 1, by simp; omega, ?_, by simpa using hpx⟩
            rw [hseq]
            omega
      · have hseq : scanIds x lm (c :: t) = 0 := by
          simp [scanIds, h1, h2]
        constructor
        · simp only [hseq, List.getElem_cons_zero]
          exact h1
        · left
          simp only [hseq, List.getElem_cons_zero]
          exact h2

/-- A non-ancestor head that extends the running `lastMatchId` has no extension at or
after the scan's stop index: its whole extension run is scanned past. -/
theorem scanIds_no_late_ext (x : List Char) (t : List (List Char)) (lm c : List Char)
    (h1 : ¬ c <+: x) (h2 : lm <+: c) (hC : ContiguousExt (c :: t)) :
    ∀ q, (hq : q < t.length) → scanIds x lm t ≤ q → ¬ IdExt t[q] c := by
  intro q hq hsq hext
  have hs : scanIds x lm t < t.length := by omega
  obtain ⟨hstop1, hstop2⟩ := scanIds_stop x t lm hs
  have hall : ∀ p, (hp : p < t.length) → p ≤ q → IdExt t[p] c := by
    intro p hp hpq
    rcases eq_or_lt_of_le hpq with he | hlt
    · subst he; exact hext
    · exact hC 0 (by simp) (p + 1) (by simp; omega) (q + 1) (by simp; omega)
        (by omega) (by omega) hext
  rcases hstop2 with hno | ⟨p, hp, hps, hpx⟩
  · exact hno (h2.trans (hall _ hs hsq).1)
  · exact h1 ((hall p hp (by omega)).1.trans hpx)

/-- Cons decomposition of `NoEarlyExt`. -/
theorem noEarlyExt_cons {a : List Char} {l : List (List Char)} :
    NoEarlyExt (a :: l) ↔
      (∀ j, (hj : j < l.length) → ¬ IdExt a l[j]) ∧ NoEarlyExt l := by
  constructor
  · intro h
    constructor
    · intro j hj
      exact h 0 (by simp) (j + 1) (by simp; omega) (by omega)
    · intro i hi j hj hij
      exact h (i + 1) (by simp; omega) (j + 1) (by simp; omega) (by omega)
  · rintro ⟨h0, h⟩ i hi j hj hij
    cases i with
    | zero =>
      cases j with
      | zero => exact absurd hij (by omega)
      | succ j' =>
        have hj' : j' < l.length := by
          simp only [List.length_cons] at hj
          omega
        exact h0 j' hj'
    | succ i' =>
      cases j with
      | zero => exact absurd hij (by omega)
      | succ j' =>
        have hi' : i' < l.length := by
          simp only [List.length_cons] at hi
          omega
        have hj' : j' < l.length := by
          simp only [List.length_cons] at hj
          omega
        exact h i' hi' j' hj' (by omega)

/-- Cons decomposition of `ContiguousExt`. -/
theorem contiguousExt_cons {a : List Char} {l : List (List Char)} :
    ContiguousExt (a :: l) ↔
      (∀ m, (hm : m < l.length) → ∀ j, (hj : j < l.length) → m < j →
        IdExt l[j] a → IdExt l[m] a) ∧ ContiguousExt l := by
  constructor
  · intro h
    constructor
    · intro m hm j hj hmj hja
      exact h 0 (by simp) (m + 1) (by simp; omega) (j + 1) (by simp; omega)
        (by omega) (by omega) hja
    · intro i hi m hm j hj him hmj hja
      exact h (i + 1) (by simp; omega) (m + 1) (by simp; omega) (j + 1) (by simp; omega)
        (by omega) (by omega) hja
  · rintro ⟨h0, h⟩ i hi m hm j hj him hmj hja
    cases i with
    | zero =>
      cases m with
      | zero => exact absurd him (by omega)
      | succ m' =>
        cases j with
        | zero => exact absurd hmj (by omega)
        | succ j' =>
          have hm' : m' < l.length := by
            simp only [List.length_cons] at hm
            omega
          have hj' : j' < l.length := by
            simp only [List.length_cons] at hj
            omega
          exact h0 m' hm' j' hj' (by omega) hja
    | succ i' =>
      cases m with
      | zero => exact absurd him (by omega)
      | succ m' =>
        cases j with
        | zero => exact absurd hmj (by omega)
        | succ j' =>
          have hi' : i' < l.length := by
            simp only [List.length_cons] at hi
            omega
          have hm' : m' < l.length := by
            simp only [List.length_cons] at hm
            omega
          have hj' : j' < l.length := by
            simp only [List.length_cons] at hj
            omega
          exact h i' hi' m' hm' j' hj' (by omega) (by omega) hja

/-- Inserting the incoming id at the scan index preserves the ordering invariant, provided
no present id extends (or equals) the incoming id and the running `lastMatchId` is a
prefix of the incoming id that every remaining ancestor extends, whose extension run is an
initial segment of the remaining list, and that no remaining id equals (all trivial for
the initial empty `lastMatchId`). -/
theorem insertAt_scanIds_TreeInv (x : List Char) :
    ∀ (L : List (List Char)) (lm : List Char),
      TreeInv L →
      (∀ i, (hi : i < L.length) → ¬ x <+: L[i]) →
      lm <+: x →
      (∀ i, (hi : i < L.length) → L[i] <+: x → lm <+: L[i]) →
      (lm = [] ∨ ∀ i, (hi : i < L.length) → ∀ j, (hj : j < L.length) → i ≤ j →
        IdExt L[j] lm → IdExt L[i] lm) →
      (lm = [] ∨ ∀ i, (hi : i < L.length) → L[i] ≠ lm) →
      TreeInv (insertAt (scanIds x lm L) x L) := by
  intro L
  induction L with
  | nil =>
    intro lm _ _ _ _ _ _
    refine ⟨List.nodup_singleton x, ?_, ?_⟩
    · intro i hi j hj hij
      simp only [scanIds, insertAt, List.length_singleton] at hi hj
      exact absurd hij (by omega)
    · intro i hi m hm j hj him hmj
      simp only [scanIds, insertAt, List.length_singleton] at hi hm hj
      exact absurd him (by omega)
  | cons c t ih =>
    intro lm hinv hgood hlmx hK2 hK6 hK7
    obtain ⟨hnd, hne, hC⟩ := hinv
    have hndt : t.Nodup := hnd.of_cons
    have hnet : NoEarlyExt t := (noEarlyExt_cons.mp hne).2
    have hct : ContiguousExt t := (contiguousExt_cons.mp hC).2
    have hHeadNE : ∀ j, (hj : j < t.length) → ¬ IdExt c t[j] := (noEarlyExt_cons.mp hne).1
    have hHeadC : ∀ m, (hm : m < t.length) → ∀ j, (hj : j < t.length) → m < j →
        IdExt t[j] c → IdExt t[m] c := (contiguousExt_cons.mp hC).1
    have hcnotin : c ∉ t := (List.nodup_cons.mp hnd).1
    have hgoodt : ∀ i, (hi : i < t.length) → ¬ x <+: t[i] := by
      intro i hi
      exact hgood (i + 1) (by simp; omega)
    have hxc : c ≠ x := by
      intro he
      exact hgood 0 (by simp) (by rw [he]; exact List.prefix_rfl)
    by_cases h1 : c <+: x
    · -- the head is an ancestor of the incoming id
      have hseq : scanIds x lm (c :: t) = scanIds x c t + 1 := by
        simp [scanIds, h1]
      have hins : insertAt (scanIds x lm (c :: t)) x (c :: t) =
          c :: insertAt (scanIds x c t) x t := by
        rw [hseq]
        rfl
      rw [hins]
      have hK2t : ∀ i, (hi : i < t.length) → t[i] <+: x → c <+: t[i] :=
        hK2_step x c t hnd hne h1
      have hK6t : ∀ i, (hi : i < t.length) → ∀ j, (hj : j < t.length) → i ≤ j →
          IdExt t[j] c → IdExt t[i] c := by
        intro i hi j hj hij hext
        rcases eq_or_lt_of_le hij with he | hlt
        · subst he; exact hext
        · exact hHeadC i hi j hj hlt hext
      have hK7t : ∀ i, (hi : i < t.length) → t[i] ≠ c := by
        intro i hi he
        exact hcnotin (he ▸ List.getElem_mem hi)
      obtain ⟨ndI, neI, cI⟩ :=
        ih c ⟨hndt, hnet, hct⟩ hgoodt h1 hK2t (Or.inr hK6t) (Or.inr hK7t)
      have hd0 : ∀ i, (hi : i < t.length) → i < scanIds x c t → c <+: t[i] :=
        scanIds_passed_extend x t c hndt hnet h1 hK2t
      have hsle : scanIds x c t ≤ t.length := scanIds_le_length x t c
      refine ⟨?_, noEarlyExt_cons.mpr ⟨?_, neI⟩, contiguousExt_cons.mpr ⟨?_, cI⟩⟩
      · rw [List.nodup_cons]
        refine ⟨?_, ndI⟩
        rw [mem_insertAt]
        rintro (he | hm)
        · exact hxc he
        · exact hcnotin hm
      · intro j hj hext
        rcases insertAt_getElem_spec x (scanIds x c t) t hsle j hj with
          ⟨hjs, hjt, hjEq⟩ | ⟨hjs, hjEq⟩ | ⟨hjs, hjt, hjEq⟩
        · rw [hjEq] at hext
          exact hHeadNE j hjt hext
        · rw [hjEq] at hext
          exact hgood 0 (by simp) hext.1
        · rw [hjEq] at hext
          exact hHeadNE (j - 1) hjt hext
      · intro m hm j hj hmj hext
        have hxext : IdExt x c := ⟨h1, fun he => hxc he.symm⟩
        rcases insertAt_getElem_spec x (scanIds x c t) t hsle j hj with
          ⟨hjs, hjt, hjEq⟩ | ⟨hjs, hjEq⟩ | ⟨hjs, hjt, hjEq⟩ <;>
          rcases insertAt_getElem_spec x (scanIds x c t) t hsle m hm with
            ⟨hms, hmt, hmEq⟩ | ⟨hms, hmEq⟩ | ⟨hms, hmt, hmEq⟩
        · rw [hjEq] at hext
          rw [hmEq]
          exact hHeadC m hmt j hjt hmj hext
        · exact absurd (hms ▸ hmj) (by omega)
        · exact absurd hmj (by omega)
        · rw [hmEq]
          refine ⟨hd0 m hmt (by omega), ?_⟩
          intro he
          exact hcnotin (he ▸ List.getElem_mem hmt)
        · exact absurd hmj (by omega)
        · exact absurd hmj (by omega)
        · rw [hjEq] at hext
          rw [hmEq]
          exact hHeadC m hmt (j - 1) hjt (by omega) hext
        · rw [hmEq]
          exact hxext
        · rw [hjEq] at hext
          rw [hmEq]
          exact hHeadC (m - 1) hmt (j - 1) hjt (by omega) hext
    · by_cases h2 : lm <+: c
      · -- the head is skipped as an extension of the running lastMatchId
        have hseq : scanIds x lm (c :: t) = scanIds x lm t + 1 := by
          simp [scanIds, h1, h2]
        have hins : insertAt (scanIds x lm (c :: t)) x (c :: t) =
            c :: insertAt (scanIds x lm t) x t := by
          rw [hseq]
          rfl
        rw [hins]
        have hK2t : ∀ i, (hi : i < t.length) → t[i] <+: x → lm <+: t[i] := by
          intro i hi hix
          exact hK2 (i + 1) (by simp; omega) hix
        have hK6t : lm = [] ∨ ∀ i, (hi : i < t.length) → ∀ j, (hj : j < t.length) →
            i ≤ j → IdExt t[j] lm → IdExt t[i] lm := by
          rcases hK6 with h | h
          · exact Or.inl h
          · right
            intro i hi j hj hij hext
            exact h (i + 1) (by simp; omega) (j + 1) (by simp; omega) (by omega) hext
        have hK7t : lm = [] ∨ ∀ i, (hi : i < t.length) → t[i] ≠ lm := by
          rcases hK7 with h | h
          · exact Or.inl h
          · right
            intro i hi
            exact h (i + 1) (by simp; omega)
        obtain ⟨ndI, neI, cI⟩ :=
          ih lm ⟨hndt, hnet, hct⟩ hgoodt hlmx hK2t hK6t hK7t
        have hsle : scanIds x lm t ≤ t.length := scanIds_le_length x t lm
        have hlate : ∀ q, (hq : q < t.length) → scanIds x lm t ≤ q → ¬ IdExt t[q] c :=
          scanIds_no_late_ext x t lm c h1 h2 hC
        refine ⟨?_, noEarlyExt_cons.mpr ⟨?_, neI⟩, contiguousExt_cons.mpr ⟨?_, cI⟩⟩
        · rw [List.nodup_cons]
          refine ⟨?_, ndI⟩
          rw [mem_insertAt]
          rintro (he | hm)
          · exact hxc he
          · exact hcnotin hm
        · intro j hj hext
          rcases insertAt_getElem_spec x (scanIds x lm t) t hsle j hj with
            ⟨hjs, hjt, hjEq⟩ | ⟨hjs, hjEq⟩ | ⟨hjs, hjt, hjEq⟩
          · rw [hjEq] at hext
            exact hHeadNE j hjt hext
          · rw [hjEq] at hext
            exact hgood 0 (by simp) hext.1
          · rw [hjEq] at hext
            exact hHeadNE (j - 1) hjt hext
        · intro m hm j hj hmj hext
          rcases insertAt_getElem_spec x (scanIds x lm t) t hsle j hj with
            ⟨hjs, hjt, hjEq⟩ | ⟨hjs, hjEq⟩ | ⟨hjs, hjt, hjEq⟩
          · -- the extension of c sits before the stop index
            rw [hjEq] at hext
            rcases insertAt_getElem_spec x (scanIds x lm t) t hsle m hm with
              ⟨hms, hmt, hmEq⟩ | ⟨hms, hmEq⟩ | ⟨hms, hmt, hmEq⟩
            · rw [hmEq]
              exact hHeadC m hmt j hjt hmj hext
            · exact absurd (hms ▸ hmj) (by omega)
            · exact absurd hmj (by omega)
          · rw [hjEq] at hext
            exact absurd hext.1 h1
          · rw [hjEq] at hext
            exact absurd hext (hlate (j - 1) hjt (by omega))
      · -- the scan stops immediately: the incoming id goes in front
        have hseq : scanIds x lm (c :: t) = 0 := by
          simp [scanIds, h1, h2]
        have hins : insertAt (scanIds x lm (c :: t)) x (c :: t) = x :: c :: t := by
          rw [hseq]
          rfl
        rw [hins]
        have hlmnil : lm ≠ [] := by
          intro he
          rw [he] at h2
          exact h2 (List.nil_prefix)
        have hK6r := hK6.resolve_left hlmnil
        have hK7r := hK7.resolve_left hlmnil
        have hfactA : ∀ i, (hi : i < (c :: t).length) → ¬ (c :: t)[i] <+: x := by
          intro i hi hpre
          cases i with
          | zero => exact h1 hpre
          | succ q =>
            have hlmq : lm <+: (c :: t)[q + 1] := hK2 (q + 1) hi hpre
            have hneq : (c :: t)[q + 1] ≠ lm := hK7r (q + 1) hi
            have hcext : IdExt c lm :=
              hK6r 0 (by simp) (q + 1) hi (by omega) ⟨hlmq, hneq⟩
            exact h2 hcext.1
        refine ⟨?_, noEarlyExt_cons.mpr ⟨?_, hne⟩, contiguousExt_cons.mpr ⟨?_, hC⟩⟩
        · rw [List.nodup_cons]
          refine ⟨?_, hnd⟩
          intro hmem
          obtain ⟨i, hi, hEq⟩ := List.mem_iff_getElem.mp hmem
          exact hfactA i hi (by rw [hEq])
        · intro j hj hext
          exact hfactA j hj hext.1
        · intro m hm j hj hmj hext
          exact absurd hext.1 (hgood j hj)

/-- A well-ordered sequence of `addElement` calls preserves the ordering invariant. -/
theorem goodAdds_preserves : ∀ (ops : List ElementDefinition) (sd : StructureDefinition),
    TreeInv (idsData sd) → goodAdds sd ops = true →
    TreeInv (idsData (sd.addElements ops)) := by
  intro ops
  induction ops with
  | nil =>
    intro sd h _
    simpa [StructureDefinition.addElements] using h
  | cons e rest ih =>
    intro sd h hg
    simp only [goodAdds, Bool.and_eq_true] at hg
    obtain ⟨hall, hrest⟩ := hg
    have hgood : ∀ i, (hi : i < (idsData sd).length) → ¬ e.id.data <+: (idsData sd)[i] := by
      intro i hi
      have hi' : i < sd.elements.length := by simpa [idsData] using hi
      have hmem : sd.elements[i] ∈ sd.elements := List.getElem_mem hi'
      have hfalse := List.all_eq_true.mp hall sd.elements[i] hmem
      simp only [Bool.not_eq_true'] at hfalse
      intro hpre
      have hEq : (idsData sd)[i] = sd.elements[i].id.data := by
        simp [idsData]
      rw [hEq] at hpre
      have htrue : e.id.data.isPrefixOf sd.elements[i].id.data = true := by
        rw [ List.isPrefixOf_iff_prefix]
        exact hpre
      rw [hfalse] at htrue
      exact Bool.false_ne_true htrue
    have hstep : TreeInv (idsData (sd.addElement e)) := by
      rw [idsData_addElement]
      exact insertAt_scanIds_TreeInv e.id.data (idsData sd) [] h hgood
        (List.nil_prefix) (fun i hi _ => List.nil_prefix) (Or.inl rfl) (Or.inl rfl)
    have hfold : sd.addElements (e :: rest) = (sd.addElement e).addElements rest := rfl
    rw [hfold]
    exact ih (sd.addElement e) hstep hrest

/-- The ordering invariant yields the (plain-prefix) child-locality property. -/
theorem treeInv_locality (sd : StructureDefinition) (h : TreeInv (idsData sd)) :
    PrefixChildLocality sd := by
  obtain ⟨hnd, hne, hC⟩ := h
  intro i hi j hj hext
  have hij : i < j := by
    rcases Nat.lt_trichotomy i j with hlt | heq | hgt
    · exact hlt
    · exfalso
      subst heq
      exact hext.2 rfl
    · exact absurd hext (hne j hj i hi hgt)
  refine ⟨hij, ?_⟩
  intro m hm him hmj
  rcases eq_or_lt_of_le hmj with he | hlt
  · subst he
    exact hext
  · exact hC i hi m hm j hj him hlt hext

/-- The fresh resource (just the synthetic root) satisfies the ordering invariant. -/
theorem treeInv_new : TreeInv (idsData StructureDefinition.new) := by
  refine ⟨by decide, ?_, ?_⟩
  · intro i hi j hj hij
    have : i = 0 ∧ j = 0 := by
      simp only [idsData, StructureDefinition.new, List.map_cons, List.map_nil,
        List.length_singleton] at hi hj
      omega
    omega
  · intro i hi m hm j hj him hmj
    have : i = 0 ∧ m = 0 := by
      simp only [idsData, StructureDefinition.new, List.map_cons, List.map_nil,
        List.length_singleton] at hi hm
      omega
    omega

/-- The first element added in the C1 counterexample (a child added before its parent). -/
def c1BadChild : ElementDefinition := { id := "A.b", path := "A.b" }

/-- The second element added in the C1 counterexample (the parent, added after). -/
def c1BadParent : ElementDefinition := { id := "A", path := "A" }

/-- The C1 counterexample resource: two `addElement` calls on a fresh resource. -/
def c1BadSD : StructureDefinition :=
  (StructureDefinition.new.addElement c1BadChild).addElement c1BadParent

/-- C1 counterexample: after the two `addElement` calls the element order is
`["", "A.b", "A"]`, so the node `A`'s dotted-prefix extension `A.b` sits BEFORE `A` rather
than in a contiguous run immediately following it: the child-locality invariant, as the
claim states it (for every sequence of `addElement` calls), fails. -/
theorem claim_C1_counterexample :
    c1BadSD.elements.map (fun e => e.id) = ["", "A.b", "A"] ∧
      ¬ DottedChildLocality c1BadSD := by
  refine ⟨by decide, ?_⟩
  intro h
  have h3 : (idsData c1BadSD).length = 3 := by decide
  have hd : DottedExt (idsData c1BadSD)[1] (idsData c1BadSD)[2] := by decide
  have := (h 2 (by omega) 1 (by omega) hd).1
  omega

/-- C1 amended: with "prefix extension" read as the plain string-prefix relation the code
compares, and restricted to `addElement` sequences in which each added id is not a prefix
(nor a duplicate) of any already-present id — ancestors before descendants — the
child-locality invariant holds for every node after any such sequence from a fresh
resource: every extension of a node's id sits strictly after it in one contiguous run. -/
theorem claim_C1_amended (ops : List ElementDefinition)
    (h : goodAdds StructureDefinition.new ops = true) :
    PrefixChildLocality (StructureDefinition.new.addElements ops) :=
  treeInv_locality _ (goodAdds_preserves ops StructureDefinition.new treeInv_new h)

/-- A well-ordered sequence of additions: each parent before its children, with a sibling
branch added in between. -/
def c1GoodOps : List ElementDefinition :=
  [ { id := "Patient", path := "Patient" },
    { id := "Patient.name", path := "Patient.name" },
    { id := "Patient.name.given", path := "Patient.name.given" },
    { id := "Patient.gender", path := "Patient.gender" } ]

/-- C1 witness: the concrete well-ordered sequence satisfies the amended claim's
precondition, and the resulting resource enjoys prefix child-locality. -/
theorem claim_C1_witness :
    goodAdds StructureDefinition.new c1GoodOps = true ∧
      PrefixChildLocality (StructureDefinition.new.addElements c1GoodOps) :=
  ⟨by decide, claim_C1_amended c1GoodOps (by decide)⟩
